import Mathlib

/-!
Shallow embedding of the arbitrage-detection core of `Arbitrage.py`:
matrix completion (`transform_input`), exhaustive enumeration of simple
open trading paths (`generate_transaction`, mirroring itertools'
combination and permutation order), and the memoized detection loop
(`detect_arbitrage`).  Exchange rates are modelled as rationals; the
Python dict memo is modelled as a function `List Nat → Option ℚ`
updated pointwise, and the mutable result/matrix state of a run is the
record `DetState`.
-/

namespace Arbitrage

/-- Sequential evaluation of an option-valued function over a list,
modelling a Python loop that can raise: `none` as soon as any element
fails, otherwise the list of results. -/
def optMap {α β : Type} (f : α → Option β) : List α → Option (List β)
  | [] => some []
  | x :: xs =>
    match f x, optMap f xs with
    | some y, some ys => some (y :: ys)
    | _, _ => none

/-- `transform_input` from `Arbitrage.py`: complete the `N × (N-1)`
input table into an `N × N` matrix with unit diagonal; entry `(i, j)`
for `j < i` reads `input[i][j]`, for `j > i` reads `input[i][j-1]`.
Out-of-range accesses (Python `IndexError`) are modelled as `none`. -/
def transform_input (input : List (List ℚ)) (N : Nat) : Option (List (List ℚ)) :=
  optMap (fun i =>
    optMap (fun j =>
      if j < i then (input.get? i).bind (fun row => row.get? j)
      else if j = i then some 1
      else (input.get? i).bind (fun row => row.get? (j - 1)))
      (List.range N))
    (List.range N)

/-- All `k`-element combinations of a list, in the order produced by
`itertools.combinations`: every subsequence of length `k`, those
containing the head first. -/
def combs {α : Type} : List α → Nat → List (List α)
  | _, 0 => [[]]
  | [], _ + 1 => []
  | x :: xs, k + 1 => (combs xs k).map (fun c => x :: c) ++ combs xs (k + 1)

/-- Every way of picking one element out of a list, paired with the
remaining elements in their original order. -/
def picks {α : Type} : List α → List (α × List α)
  | [] => []
  | x :: xs => (x, xs) :: (picks xs).map (fun p => (p.1, x :: p.2))

/-- Fuel-indexed permutation enumeration in the order produced by
`itertools.permutations`: each element is picked in turn as the head. -/
def permsAux {α : Type} : Nat → List α → List (List α)
  | 0, _ => [[]]
  | _ + 1, [] => [[]]
  | n + 1, x :: xs =>
    (picks (x :: xs)).flatMap (fun p => (permsAux n p.2).map (fun q => p.1 :: q))

/-- All permutations of a list, in `itertools.permutations` order. -/
def perms {α : Type} (l : List α) : List (List α) := permsAux l.length l

/-- `generate_transaction` from `Arbitrage.py`: every ordered sequence
of `i` distinct currency indices drawn from `{0, …, N-1}` — for each
combination (in itertools order) all its permutations (in itertools
order). -/
def generate_transaction (N i : Nat) : List (List Nat) :=
  (combs (List.range N) i).flatMap perms

/-- Matrix read `m[a][b]`. -/
def rate (m : List (List ℚ)) (a b : Nat) : ℚ := (m.getD a []).getD b 0

/-- The state mutated by one run of `detect_arbitrage`: the exchange
rate matrix (never written), the memo dict, and the accumulated
arbitrage chains. -/
structure DetState where
  mat : List (List ℚ)
  memo : List Nat → Option ℚ
  chains : List (List Nat)

/-- The empty memo (a fresh `{}`). -/
def emptyMemo : List Nat → Option ℚ := fun _ => none

/-- The 1-based closed display chain recorded for a profitable
transaction `t`: `list(t) + [t[0]]` with every entry shifted by one. -/
def displayChain (t : List Nat) : List Nat :=
  t.map (fun x => x + 1) ++ [t.getD 0 0 + 1]

/-- The `cycle_result` value computed for transaction `t` before the
cycle is closed: from the memoized prefix if `t[:-1]` is a key of the
memo, else directly as `m[t[0]][t[1]]`. -/
def crOf (st : DetState) (t : List Nat) : ℚ :=
  match st.memo t.dropLast with
  | some v => v * rate st.mat (t.getD (t.length - 2) 0) (t.getD (t.length - 1) 0)
  | none => rate st.mat (t.getD 0 0) (t.getD 1 0)

/-- The body of the inner loop of `detect_arbitrage` for one
transaction `t`: compute `cycle_result`, store it in the memo under
`t`, close the cycle with `m[t[-1]][t[0]]`, and record the display
chain when the closed value exceeds `1.01`. -/
def step (st : DetState) (t : List Nat) : DetState :=
  ⟨st.mat,
   fun k => if k = t then some (crOf st t) else st.memo k,
   if 1.01 < crOf st t * rate st.mat (t.getD (t.length - 1) 0) (t.getD 0 0) then
     st.chains ++ [displayChain t]
   else st.chains⟩

/-- One pass of the outer loop of `detect_arbitrage`: process every
transaction of length `K`. -/
def runBlock (N : Nat) (st : DetState) (K : Nat) : DetState :=
  (generate_transaction N K).foldl step st

/-- `detect_arbitrage` from `Arbitrage.py`: for each length
`i ∈ range(2, N+1)` process all transactions of that length, starting
from the caller-supplied memo (the default argument is the shared dict,
modelled by passing the previous run's memo). -/
def detect_arbitrage (m : List (List ℚ)) (N : Nat)
    (memo : List Nat → Option ℚ) : DetState :=
  (List.range' 2 (N - 1)).foldl (runBlock N) ⟨m, memo, []⟩

/-- Compounded rate of an open path: the product of
`rate[t_k][t_{k+1}]` over consecutive pairs. -/
def pathProd (m : List (List ℚ)) : List Nat → ℚ
  | a :: b :: rest => rate m a b * pathProd m (b :: rest)
  | _ => 1

/-- Value of the closed cycle obtained from open path `t` by returning
from its last currency to its first. -/
def cycleVal (m : List (List ℚ)) (t : List Nat) : ℚ :=
  pathProd m t * rate m (t.getD (t.length - 1) 0) (t.getD 0 0)

/-- A valid open transaction over `N` currencies: pairwise distinct
indices below `N`. -/
def isTrans (N : Nat) (t : List Nat) : Prop :=
  t.Nodup ∧ ∀ x ∈ t, x < N

/-- A memo with no length-one keys (every key written by the code is a
transaction of length at least two). -/
def goodMemo (memo : List Nat → Option ℚ) : Prop :=
  ∀ k : List Nat, k.length = 1 → memo k = none

/-- Chains contributed by the block of transactions of length `K`. -/
def blockChains (m : List (List ℚ)) (N K : Nat) : List (List Nat) :=
  (generate_transaction N K).filterMap
    (fun t => if 1.01 < cycleVal m t then some (displayChain t) else none)

/-- The full chain list of one detection run, in emission order:
ascending length, enumerator order within a length. -/
def chainsSpec (m : List (List ℚ)) (N : Nat) : List (List Nat) :=
  (List.range' 2 (N - 1)).flatMap (blockChains m N)

/-- The run state at the moment the transaction following prefix `p`
of the length-`K` block is about to be processed, for a run started on
matrix `m` with an empty memo. -/
def stateBefore (m : List (List ℚ)) (N K : Nat) (p : List (List Nat)) : DetState :=
  p.foldl step ((List.range' 2 (K - 2)).foldl (runBlock N) ⟨m, emptyMemo, []⟩)

/-! ### Combinations: membership, count, distinctness -/

theorem combs_zero {α : Type} (l : List α) : combs l 0 = [[]] := by
  cases l <;> rfl

theorem combs_nil_succ {α : Type} (k : Nat) : combs ([] : List α) (k + 1) = [] := rfl

theorem combs_cons_succ {α : Type} (x : α) (xs : List α) (k : Nat) :
    combs (x :: xs) (k + 1) = (combs xs k).map (fun c => x :: c) ++ combs xs (k + 1) := rfl

theorem mem_combs {α : Type} :
    ∀ (l : List α) (k : Nat) (s : List α), s ∈ combs l k ↔ s.Sublist l ∧ s.length = k
  | l, 0, s => by
    rw [combs_zero]
    simp only [List.mem_singleton]
    constructor
    · rintro rfl
      exact ⟨List.nil_sublist l, rfl⟩
    · rintro ⟨_, h⟩
      exact List.length_eq_zero.mp h
  | [], k + 1, s => by
    simp only [combs_nil_succ, List.not_mem_nil, false_iff, not_and]
    intro hs
    rw [List.sublist_nil.mp hs]
    simp
  | x :: xs, k + 1, s => by
    rw [combs_cons_succ]
    simp only [List.mem_append, List.mem_map]
    constructor
    · rintro (⟨c, hc, rfl⟩ | h)
      · rcases (mem_combs xs k c).mp hc with ⟨h1, h2⟩
        exact ⟨h1.cons₂ x, by simp [h2]⟩
      · rcases (mem_combs xs (k + 1) s).mp h with ⟨h1, h2⟩
        exact ⟨h1.cons x, h2⟩
    · rintro ⟨hs, hlen⟩
      rcases List.sublist_cons_iff.mp hs with h | ⟨r, rfl, hr⟩
      · exact Or.inr ((mem_combs xs (k + 1) s).mpr ⟨h, hlen⟩)
      · exact Or.inl ⟨r, (mem_combs xs k r).mpr ⟨hr, by simpa using hlen⟩, rfl⟩

theorem length_combs {α : Type} :
    ∀ (l : List α) (k : Nat), (combs l k).length = l.length.choose k
  | l, 0 => by rw [combs_zero]; simp
  | [], k + 1 => by simp [combs_nil_succ]
  | x :: xs, k + 1 => by
    rw [combs_cons_succ]
    simp only [List.length_append, List.length_map, length_combs xs k,
      length_combs xs (k + 1), List.length_cons]
    rw [Nat.choose_succ_succ]

theorem nodup_combs {α : Type} :
    ∀ (l : List α) (k : Nat), l.Nodup → (combs l k).Nodup
  | l, 0, _ => by rw [combs_zero]; simp
  | [], k + 1, _ => by simp [combs_nil_succ]
  | x :: xs, k + 1, h => by
    rw [combs_cons_succ]
    rcases List.nodup_cons.mp h with ⟨hx, hxs⟩
    apply List.Nodup.append
    · exact List.Nodup.map List.cons_injective (nodup_combs xs k hxs)
    · exact nodup_combs xs (k + 1) hxs
    · intro s hs1 hs2
      rcases List.mem_map.mp hs1 with ⟨c, _, rfl⟩
      rcases (mem_combs xs (k + 1) _).mp hs2 with ⟨hsub, _⟩
      exact hx (hsub.subset (List.mem_cons_self x c))

/-! ### Picks and permutations -/

theorem picks_spec {α : Type} :
    ∀ (l : List α) (p : α × List α),
      p ∈ picks l ↔ ∃ l1 l2, l = l1 ++ p.1 :: l2 ∧ p.2 = l1 ++ l2
  | [], p => by
    constructor
    · intro h
      exact absurd h (by simp [picks])
    · rintro ⟨l1, l2, h, -⟩
      exact absurd h.symm (by simp)
  | x :: xs, ⟨a, rest⟩ => by
    simp only [picks, List.mem_cons, List.mem_map]
    constructor
    · rintro (h | ⟨q, hq, hmap⟩)
      · rcases Prod.mk.injEq .. ▸ h with ⟨h1, h2⟩
        exact ⟨[], xs, by simp [h1.symm], by simp [h2.symm]⟩
      · rcases (picks_spec xs q).mp hq with ⟨l1, l2, h1, h2⟩
        rcases Prod.mk.injEq .. ▸ hmap with ⟨ha, hrest⟩
        refine ⟨x :: l1, l2, ?_, ?_⟩
        · simp [h1, ha]
        · rw [← hrest, h2]; rfl
    · rintro ⟨l1, l2, h1, h2⟩
      cases l1 with
      | nil =>
        simp only [List.nil_append] at h1 h2
        rcases List.cons.injEq .. ▸ h1 with ⟨hxa, hxs⟩
        exact Or.inl (by rw [hxa, h2, hxs])
      | cons y l1' =>
        simp only [List.cons_append] at h1
        rcases List.cons.injEq .. ▸ h1 with ⟨hxy, hxs⟩
        refine Or.inr ⟨(a, l1' ++ l2), (picks_spec xs (a, l1' ++ l2)).mpr ⟨l1', l2, hxs, rfl⟩, ?_⟩
        rw [Prod.mk.injEq]
        exact ⟨rfl, by rw [h2, List.cons_append, hxy]⟩

theorem picks_map_fst {α : Type} : ∀ l : List α, (picks l).map Prod.fst = l
  | [] => rfl
  | x :: xs => by
    simp only [picks, List.map_cons, List.map_map]
    rw [show (Prod.fst ∘ fun p : α × List α => (p.1, x :: p.2)) = Prod.fst from rfl]
    rw [picks_map_fst xs]

theorem picks_length {α : Type} (l : List α) : (picks l).length = l.length := by
  conv_rhs => rw [← picks_map_fst l]
  simp

theorem length_of_mem_picks {α : Type} {l : List α} {p : α × List α}
    (h : p ∈ picks l) : p.2.length + 1 = l.length := by
  rcases (picks_spec l p).mp h with ⟨l1, l2, h1, h2⟩
  rw [h1, h2]
  simp only [List.length_append, List.length_cons]
  omega

theorem permsAux_zero {α : Type} (l : List α) : permsAux 0 l = [[]] := rfl

theorem permsAux_succ_nil {α : Type} (n : Nat) : permsAux (n + 1) ([] : List α) = [[]] := rfl

theorem permsAux_succ_cons {α : Type} (n : Nat) (x : α) (xs : List α) :
    permsAux (n + 1) (x :: xs)
      = (picks (x :: xs)).flatMap (fun p => (permsAux n p.2).map (fun q => p.1 :: q)) := rfl

theorem mem_permsAux {α : Type} :
    ∀ (n : Nat) (l s : List α), l.length ≤ n → (s ∈ permsAux n l ↔ s.Perm l)
  | 0, l, s, h => by
    have hl : l = [] := List.length_eq_zero.mp (Nat.le_zero.mp h)
    subst hl
    simp [permsAux_zero, List.perm_nil]
  | n + 1, [], s, _ => by simp [permsAux_succ_nil, List.perm_nil]
  | n + 1, x :: xs, s, h => by
    rw [permsAux_succ_cons]
    simp only [List.mem_flatMap, List.mem_map]
    constructor
    · rintro ⟨p, hp, q, hq, rfl⟩
      rcases (picks_spec _ p).mp hp with ⟨l1, l2, h1, h2⟩
      have hlen : p.2.length ≤ n := by
        have h3 := length_of_mem_picks hp
        simp only [List.length_cons] at h3 h
        omega
      have hq' : q.Perm p.2 := (mem_permsAux n p.2 q hlen).mp hq
      rw [h1]
      refine List.Perm.trans (hq'.cons p.1) ?_
      rw [h2]
      exact List.perm_middle.symm
    · intro hs
      have hne : s ≠ [] := by
        intro h0
        subst h0
        exact List.cons_ne_nil x xs (List.perm_nil.mp hs.symm)
      obtain ⟨a, t, rfl⟩ := List.exists_cons_of_ne_nil hne
      have ha : a ∈ x :: xs := hs.subset (List.mem_cons_self a t)
      obtain ⟨l1, l2, hdecomp⟩ := List.append_of_mem ha
      refine ⟨(a, l1 ++ l2), (picks_spec _ _).mpr ⟨l1, l2, hdecomp, rfl⟩, t, ?_, rfl⟩
      have hlen : (l1 ++ l2).length ≤ n := by
        have h4 : (x :: xs).length = (l1 ++ a :: l2).length := by rw [hdecomp]
        simp only [List.length_cons, List.length_append] at h4 h
        simp only [List.length_append]
        omega
      refine (mem_permsAux n _ t hlen).mpr ?_
      have hperm : (a :: t).Perm (a :: (l1 ++ l2)) := by
        refine List.Perm.trans hs ?_
        rw [hdecomp]
        exact List.perm_middle
      exact hperm.cons_inv

theorem length_permsAux {α : Type} :
    ∀ (n : Nat) (l : List α), l.length ≤ n → (permsAux n l).length = l.length.factorial
  | 0, l, h => by
    have hl : l = [] := List.length_eq_zero.mp (Nat.le_zero.mp h)
    subst hl
    simp [permsAux_zero]
  | n + 1, [], _ => by simp [permsAux_succ_nil]
  | n + 1, x :: xs, h => by
    rw [permsAux_succ_cons, List.length_flatMap]
    have hmap : (picks (x :: xs)).map (List.length ∘ fun p => (permsAux n p.2).map (fun q => p.1 :: q))
        = (picks (x :: xs)).map (fun _ => xs.length.factorial) := by
      apply List.map_congr_left
      intro p hp
      have h3 := length_of_mem_picks hp
      simp only [List.length_cons] at h3 h
      have hlen : p.2.length ≤ n := by omega
      simp only [Function.comp_apply, List.length_map, length_permsAux n p.2 hlen]
      rw [show p.2.length = xs.length by omega]
    rw [hmap, List.map_const', List.sum_replicate, smul_eq_mul, picks_length]
    simp [Nat.factorial_succ]
  termination_by n => n

theorem nodup_permsAux {α : Type} :
    ∀ (n : Nat) (l : List α), l.Nodup → l.length ≤ n → (permsAux n l).Nodup
  | 0, l, _, h => by
    have hl : l = [] := List.length_eq_zero.mp (Nat.le_zero.mp h)
    subst hl
    simp [permsAux_zero]
  | n + 1, [], _, _ => by simp [permsAux_succ_nil]
  | n + 1, x :: xs, hnd, h => by
    rw [permsAux_succ_cons, List.nodup_flatMap]
    constructor
    · intro p hp
      have h2 : p.2.Nodup := by
        rcases (picks_spec _ p).mp hp with ⟨l1, l2, h1, h2⟩
        have hsub : (l1 ++ l2).Sublist (l1 ++ p.1 :: l2) :=
          List.Sublist.append (List.Sublist.refl l1) (List.sublist_cons_self p.1 l2)
        rw [h2]
        exact ((h1 ▸ hnd).sublist hsub)
      have h3 := length_of_mem_picks hp
      simp only [List.length_cons] at h3 h
      have hlen : p.2.length ≤ n := by omega
      exact List.Nodup.map List.cons_injective (nodup_permsAux n p.2 h2 hlen)
    · have hfst : (picks (x :: xs)).Pairwise (fun p q => p.1 ≠ q.1) := by
        have h5 : ((picks (x :: xs)).map Prod.fst).Nodup := by
          rw [picks_map_fst]
          exact hnd
        exact List.pairwise_map.mp h5
      refine hfst.imp ?_
      intro p q hne s hsp hsq
      rcases List.mem_map.mp hsp with ⟨u, _, rfl⟩
      rcases List.mem_map.mp hsq with ⟨v, _, hv⟩
      exact hne (by rcases List.cons.injEq .. ▸ hv.symm with ⟨h6, -⟩; exact h6)
  termination_by n => n

theorem mem_perms {α : Type} (l s : List α) : s ∈ perms l ↔ s.Perm l :=
  mem_permsAux l.length l s le_rfl

theorem length_perms {α : Type} (l : List α) : (perms l).length = l.length.factorial :=
  length_permsAux l.length l le_rfl

theorem nodup_perms {α : Type} (l : List α) (h : l.Nodup) : (perms l).Nodup :=
  nodup_permsAux l.length l h le_rfl

/-! ### Strictly increasing lists of naturals are subsequences of range -/

theorem split_last_of_mem {N : Nat} :
    ∀ c : List Nat, c.Pairwise (· < ·) → N ∈ c → (∀ x ∈ c, x < N + 1) →
      ∃ c', c = c' ++ [N] ∧ (∀ x ∈ c', x < N) ∧ c'.Pairwise (· < ·)
  | [], _, hm, _ => absurd hm (List.not_mem_nil N)
  | y :: d, hp, hm, hb => by
    rcases List.pairwise_cons.mp hp with ⟨hyd, hd⟩
    by_cases hy : y = N
    · subst hy
      have hd0 : d = [] := by
        cases d with
        | nil => rfl
        | cons z zs =>
          have h1 : y < z := hyd z (List.mem_cons_self z zs)
          have h2 : z < y + 1 := hb z (List.mem_cons_of_mem y (List.mem_cons_self z zs))
          omega
      subst hd0
      exact ⟨[], rfl, by simp, List.Pairwise.nil⟩
    · have hmN : N ∈ d := by
        rcases List.mem_cons.mp hm with h | h
        · exact absurd h.symm hy
        · exact h
      obtain ⟨c', rfl, hlt, hp'⟩ :=
        split_last_of_mem d hd hmN (fun x hx => hb x (List.mem_cons_of_mem y hx))
      refine ⟨y :: c', rfl, ?_, ?_⟩
      · intro x hx
        rcases List.mem_cons.mp hx with rfl | hx
        · have h7 := hb x (List.mem_cons_self x _)
          omega
        · exact hlt x hx
      · exact List.pairwise_cons.mpr ⟨fun x hx => hyd x (List.mem_append_left [N] hx), hp'⟩

theorem sorted_sublist_range :
    ∀ (N : Nat) (c : List Nat), c.Pairwise (· < ·) → (∀ x ∈ c, x < N) →
      c.Sublist (List.range N)
  | 0, c, _, hb => by
    have hc : c = [] := by
      cases c with
      | nil => rfl
      | cons y d => exact absurd (hb y (List.mem_cons_self y d)) (by omega)
    subst hc
    simp
  | N + 1, c, hp, hb => by
    by_cases hN : N ∈ c
    · obtain ⟨c', rfl, hlt, hp'⟩ := split_last_of_mem c hp hN hb
      rw [List.range_succ]
      exact List.Sublist.append (sorted_sublist_range N c' hp' hlt) (List.Sublist.refl [N])
    · have hsub : c.Sublist (List.range N) :=
        sorted_sublist_range N c hp (fun x hx => by
          have h1 := hb x hx
          have h2 : x ≠ N := fun h => hN (h ▸ hx)
          omega)
      exact hsub.trans (List.range_sublist.mpr (Nat.le_succ N))

/-! ### The enumerator: membership, distinctness, count -/

theorem mem_generate {N K : Nat} {t : List Nat} :
    t ∈ generate_transaction N K ↔ t.length = K ∧ t.Nodup ∧ ∀ x ∈ t, x < N := by
  unfold generate_transaction
  rw [List.mem_flatMap]
  constructor
  · rintro ⟨c, hc, ht⟩
    rcases (mem_combs _ _ _).mp hc with ⟨hsub, hlen⟩
    have hperm : t.Perm c := (mem_perms c t).mp ht
    refine ⟨by rw [hperm.length_eq, hlen], ?_, ?_⟩
    · exact hperm.nodup_iff.mpr ((List.nodup_range N).sublist hsub)
    · intro x hx
      exact List.mem_range.mp (hsub.subset (hperm.subset hx))
  · rintro ⟨hlen, hnd, hb⟩
    have hcp : (List.insertionSort (· ≤ ·) t).Perm t := List.perm_insertionSort _ t
    have hsort : List.Sorted (· ≤ ·) (List.insertionSort (· ≤ ·) t) :=
      List.sorted_insertionSort _ t
    have hcnd : (List.insertionSort (· ≤ ·) t).Nodup := hcp.nodup_iff.mpr hnd
    have hlt : (List.insertionSort (· ≤ ·) t).Pairwise (· < ·) := by
      have h8 : (List.insertionSort (· ≤ ·) t).Pairwise
          (fun a b => a ≤ b ∧ a ≠ b) := List.Pairwise.and hsort hcnd
      exact h8.imp (fun h => lt_of_le_of_ne h.1 h.2)
    have hsubr : (List.insertionSort (· ≤ ·) t).Sublist (List.range N) :=
      sorted_sublist_range N _ hlt (fun x hx => hb x (hcp.subset hx))
    exact ⟨List.insertionSort (· ≤ ·) t,
      (mem_combs _ _ _).mpr ⟨hsubr, by rw [hcp.length_eq, hlen]⟩,
      (mem_perms _ t).mpr hcp.symm⟩

theorem nodup_generate (N K : Nat) : (generate_transaction N K).Nodup := by
  unfold generate_transaction
  rw [List.nodup_flatMap]
  constructor
  · intro c hc
    rcases (mem_combs _ _ _).mp hc with ⟨hsub, _⟩
    exact nodup_perms c ((List.nodup_range N).sublist hsub)
  · have hnd : (combs (List.range N) K).Nodup := nodup_combs _ _ (List.nodup_range N)
    refine hnd.imp_of_mem ?_
    intro c c' hc hc' hne
    intro s hs hs'
    have h1 : s.Perm c := (mem_perms c s).mp hs
    have h2 : s.Perm c' := (mem_perms c' s).mp hs'
    apply hne
    have hsc : c.Sublist (List.range N) := ((mem_combs _ _ _).mp hc).1
    have hsc' : c'.Sublist (List.range N) := ((mem_combs _ _ _).mp hc').1
    have hsort : List.Sorted (· ≤ ·) c :=
      (List.Pairwise.sublist hsc (List.pairwise_lt_range N)).imp le_of_lt
    have hsort' : List.Sorted (· ≤ ·) c' :=
      (List.Pairwise.sublist hsc' (List.pairwise_lt_range N)).imp le_of_lt
    exact List.eq_of_perm_of_sorted (h1.symm.trans h2) hsort hsort'

theorem length_generate (N K : Nat) :
    (generate_transaction N K).length = N.choose K * K.factorial := by
  unfold generate_transaction
  rw [List.length_flatMap]
  have hmap : (combs (List.range N) K).map (List.length ∘ perms)
      = (combs (List.range N) K).map (fun _ => K.factorial) := by
    apply List.map_congr_left
    intro c hc
    rcases (mem_combs _ _ _).mp hc with ⟨-, hlen⟩
    simp only [Function.comp_apply, length_perms, hlen]
  rw [hmap, List.map_const', List.sum_replicate, smul_eq_mul, length_combs, List.length_range]

/-! ### Path products -/

theorem pathProd_nil (m : List (List ℚ)) : pathProd m [] = 1 := rfl

theorem pathProd_single (m : List (List ℚ)) (a : Nat) : pathProd m [a] = 1 := rfl

theorem pathProd_cons₂ (m : List (List ℚ)) (a b : Nat) (rest : List Nat) :
    pathProd m (a :: b :: rest) = rate m a b * pathProd m (b :: rest) := rfl

theorem two_le_length_decomp :
    ∀ (t : List Nat), 2 ≤ t.length → ∃ w x y, t = w ++ [x, y]
  | [], h => by simp at h
  | [a], h => by simp at h
  | a :: b :: rest, _ => by
    cases rest with
    | nil => exact ⟨[], a, b, rfl⟩
    | cons c rs =>
      obtain ⟨w, x, y, hw⟩ := two_le_length_decomp (b :: c :: rs) (by simp)
      exact ⟨a :: w, x, y, by rw [List.cons_append, ← hw]⟩

theorem pathProd_append_pair (m : List (List ℚ)) (x y : Nat) :
    ∀ w : List Nat, pathProd m (w ++ [x, y]) = pathProd m (w ++ [x]) * rate m x y
  | [] => by
    simp only [List.nil_append, pathProd_cons₂, pathProd_single, mul_one, one_mul]
  | [a] => by
    simp only [List.cons_append, List.nil_append, pathProd_cons₂, pathProd_single, mul_one]
  | a :: b :: w => by
    have ih := pathProd_append_pair m x y (b :: w)
    simp only [List.cons_append] at ih ⊢
    rw [pathProd_cons₂, pathProd_cons₂, ih]
    ring

theorem dropLast_pair (w : List Nat) (x y : Nat) : (w ++ [x, y]).dropLast = w ++ [x] := by
  rw [show w ++ [x, y] = (w ++ [x]) ++ [y] by simp, List.dropLast_concat]

theorem getD_pen (w : List Nat) (x y : Nat) :
    (w ++ [x, y]).getD ((w ++ [x, y]).length - 2) 0 = x := by
  rw [List.getD_eq_getElem?_getD]
  have hl : (w ++ [x, y]).length - 2 = w.length := by simp
  rw [hl, List.getElem?_append_right (le_refl w.length)]
  simp

theorem getD_last (w : List Nat) (x y : Nat) :
    (w ++ [x, y]).getD ((w ++ [x, y]).length - 1) 0 = y := by
  rw [List.getD_eq_getElem?_getD]
  have hl : (w ++ [x, y]).length - 1 = w.length + 1 := by simp
  rw [hl, List.getElem?_append_right (by omega)]
  have hi : w.length + 1 - w.length = 1 := by omega
  rw [hi]
  simp

/-! ### The inner-loop step under the run invariant -/

theorem step_eq (N : Nat) (m : List (List ℚ)) (st : DetState) (t : List Nat)
    (hm : st.mat = m) (h2 : 2 ≤ t.length) (ht : isTrans N t) (hg : goodMemo st.memo)
    (hmemo : ∀ k : List Nat, 2 ≤ k.length → k.length < t.length → isTrans N k →
      st.memo k = some (pathProd m k)) :
    step st t = ⟨m,
      fun k => if k = t then some (pathProd m t) else st.memo k,
      if 1.01 < cycleVal m t then st.chains ++ [displayChain t] else st.chains⟩ := by
  subst hm
  have hcr : crOf st t = pathProd st.mat t := by
    rcases eq_or_lt_of_le h2 with he | hgt
    · obtain ⟨a, b, rfl⟩ := List.length_eq_two.mp he.symm
      have hnone : st.memo [a] = none := hg [a] rfl
      simp [crOf, hnone, pathProd_cons₂, pathProd_single, rate]
    · have hlen : t.dropLast.length = t.length - 1 := List.length_dropLast t
      have h2' : 2 ≤ t.dropLast.length := by omega
      have htr' : isTrans N t.dropLast :=
        ⟨ht.1.sublist (List.dropLast_sublist t),
         fun x hx => ht.2 x ((List.dropLast_sublist t).subset hx)⟩
      have hsome := hmemo t.dropLast h2' (by omega) htr'
      simp only [crOf, hsome]
      obtain ⟨w, x, y, rfl⟩ := two_le_length_decomp t h2
      rw [getD_pen, getD_last, dropLast_pair, pathProd_append_pair]
  simp only [step, hcr, cycleVal]

theorem step_mat (st : DetState) (t : List Nat) : (step st t).mat = st.mat := rfl

/-! ### Folding one block of transactions -/

theorem foldBlock (N : Nat) (m : List (List ℚ)) (K : Nat) (hK : 2 ≤ K) :
    ∀ (ts : List (List Nat)) (st : DetState),
      (∀ t ∈ ts, t.length = K ∧ isTrans N t) →
      st.mat = m → goodMemo st.memo →
      (∀ k : List Nat, 2 ≤ k.length → k.length < K → isTrans N k →
        st.memo k = some (pathProd m k)) →
      (ts.foldl step st).mat = m
      ∧ goodMemo (ts.foldl step st).memo
      ∧ (∀ k : List Nat, st.memo k = some (pathProd m k) →
          (ts.foldl step st).memo k = some (pathProd m k))
      ∧ (∀ k ∈ ts, (ts.foldl step st).memo k = some (pathProd m k))
      ∧ (ts.foldl step st).chains = st.chains
          ++ ts.filterMap (fun t => if 1.01 < cycleVal m t then some (displayChain t) else none)
  | [], st, _, hm, hg, _ => by
    refine ⟨hm, hg, fun k h => h, ?_, by simp⟩
    intro k hk
    exact absurd hk (List.not_mem_nil k)
  | t :: ts, st, hts, hm, hg, hC => by
    obtain ⟨hlen, htr⟩ := hts t (List.mem_cons_self t ts)
    have h2 : 2 ≤ t.length := by omega
    have hstep := step_eq N m st t hm h2 htr hg
      (fun k h1 hlt h3 => hC k h1 (by omega) h3)
    have hfold : (t :: ts).foldl step st = ts.foldl step (step st t) := rfl
    rw [hfold, hstep]
    have hg1 : goodMemo (fun k => if k = t then some (pathProd m t) else st.memo k) := by
      intro k hk
      have hne : k ≠ t := by
        intro hkt
        rw [hkt] at hk
        omega
      simp only [if_neg hne]
      exact hg k hk
    have hC1 : ∀ k : List Nat, 2 ≤ k.length → k.length < K → isTrans N k →
        (fun k => if k = t then some (pathProd m t) else st.memo k) k
          = some (pathProd m k) := by
      intro k h1 hlt h3
      have hne : k ≠ t := by
        intro hkt
        rw [hkt] at hlt
        omega
      simp only [if_neg hne]
      exact hC k h1 hlt h3
    obtain ⟨ih1, ih2, ih3, ih4, ih5⟩ :=
      foldBlock N m K hK ts
        ⟨m, fun k => if k = t then some (pathProd m t) else st.memo k,
          if 1.01 < cycleVal m t then st.chains ++ [displayChain t] else st.chains⟩
        (fun u hu => hts u (List.mem_cons_of_mem t hu)) rfl hg1 hC1
    refine ⟨ih1, ih2, ?_, ?_, ?_⟩
    · intro k hk
      apply ih3
      show (if k = t then some (pathProd m t) else st.memo k) = some (pathProd m k)
      by_cases hkt : k = t
      · rw [if_pos hkt, hkt]
      · rw [if_neg hkt]
        exact hk
    · intro k hk
      rcases List.mem_cons.mp hk with rfl | hk'
      · apply ih3
        show (if k = k then some (pathProd m k) else st.memo k) = some (pathProd m k)
        rw [if_pos rfl]
      · exact ih4 k hk'
    · rw [ih5]
      show (if 1.01 < cycleVal m t then st.chains ++ [displayChain t] else st.chains)
            ++ ts.filterMap (fun u => if 1.01 < cycleVal m u then some (displayChain u) else none)
          = st.chains ++ (t :: ts).filterMap
              (fun u => if 1.01 < cycleVal m u then some (displayChain u) else none)
      by_cases hcond : 1.01 < cycleVal m t
      · rw [if_pos hcond, List.filterMap_cons_some (by rw [if_pos hcond]),
          List.append_assoc, List.singleton_append]
      · rw [if_neg hcond, List.filterMap_cons_none (by rw [if_neg hcond])]

/-! ### Folding the blocks 2, 3, …, J+1 -/

theorem foldBlocks (N : Nat) (m : List (List ℚ)) :
    ∀ (J : Nat) (st0 : DetState), st0.mat = m → goodMemo st0.memo →
      ((List.range' 2 J).foldl (runBlock N) st0).mat = m
      ∧ goodMemo ((List.range' 2 J).foldl (runBlock N) st0).memo
      ∧ (∀ k : List Nat, 2 ≤ k.length → k.length < J + 2 → isTrans N k →
          ((List.range' 2 J).foldl (runBlock N) st0).memo k = some (pathProd m k))
      ∧ ((List.range' 2 J).foldl (runBlock N) st0).chains
          = st0.chains ++ (List.range' 2 J).flatMap (blockChains m N)
  | 0, st0, hm, hg => by
    refine ⟨hm, hg, ?_, by simp⟩
    intro k h1 h2 _
    omega
  | J + 1, st0, hm, hg => by
    have hsplit : List.range' 2 (J + 1) = List.range' 2 J ++ [2 + J] := by
      rw [List.range'_concat]
      simp
    rw [hsplit, List.foldl_append]
    obtain ⟨ih1, ih2, ih3, ih4⟩ := foldBlocks N m J st0 hm hg
    have hfold : ([2 + J].foldl (runBlock N) ((List.range' 2 J).foldl (runBlock N) st0))
        = (generate_transaction N (2 + J)).foldl step
            ((List.range' 2 J).foldl (runBlock N) st0) := rfl
    rw [hfold]
    obtain ⟨b1, b2, b3, b4, b5⟩ :=
      foldBlock N m (2 + J) (by omega) (generate_transaction N (2 + J))
        ((List.range' 2 J).foldl (runBlock N) st0)
        (fun t hti => by
          obtain ⟨hl, hn, hb⟩ := mem_generate.mp hti
          exact ⟨hl, hn, hb⟩)
        ih1 ih2
        (fun k h1 h2 h3 => ih3 k h1 (by omega) h3)
    refine ⟨b1, b2, ?_, ?_⟩
    · intro k h1 h2 h3
      by_cases hsh : k.length < J + 2
      · exact b3 k (ih3 k h1 hsh h3)
      · have hlK : k.length = 2 + J := by omega
        exact b4 k (mem_generate.mpr ⟨hlK, h3.1, h3.2⟩)
    · rw [b5, ih4]
      simp only [List.flatMap_append, List.flatMap_cons, List.flatMap_nil, List.append_nil,
        List.append_assoc]
      rfl

/-! ### The master characterization of one detection run -/

theorem detect_spec (m : List (List ℚ)) (N : Nat) (memo0 : List Nat → Option ℚ)
    (hg : goodMemo memo0) :
    (detect_arbitrage m N memo0).mat = m
    ∧ goodMemo (detect_arbitrage m N memo0).memo
    ∧ (detect_arbitrage m N memo0).chains = chainsSpec m N := by
  obtain ⟨h1, h2, _, h4⟩ := foldBlocks N m (N - 1) ⟨m, memo0, []⟩ rfl hg
  exact ⟨h1, h2, by rw [detect_arbitrage, h4, List.nil_append, chainsSpec]⟩

theorem foldl_runBlock_mat (N : Nat) :
    ∀ (Ks : List Nat) (st : DetState), (Ks.foldl (runBlock N) st).mat = st.mat
  | [], _ => rfl
  | K :: Ks, st => by
    rw [List.foldl_cons, foldl_runBlock_mat N Ks]
    show ((generate_transaction N K).foldl step st).mat = st.mat
    generalize generate_transaction N K = ts
    induction ts generalizing st with
    | nil => rfl
    | cons t ts ih => rw [List.foldl_cons, ih, step_mat]

/-! ### Evaluation of optMap -/

theorem optMap_eq_none {α β : Type} {f : α → Option β} {l : List α} {a : α}
    (ha : a ∈ l) (hfa : f a = none) : optMap f l = none := by
  induction l with
  | nil => exact absurd ha (List.not_mem_nil a)
  | cons x xs ih =>
    rcases List.mem_cons.mp ha with rfl | ha'
    · simp [optMap, hfa]
    · cases hfx : f x with
      | none => simp [optMap, hfx]
      | some y => simp [optMap, hfx, ih ha']

theorem optMap_eq_map {α β : Type} (f : α → Option β) (g : α → β) :
    ∀ l : List α, (∀ a ∈ l, f a = some (g a)) → optMap f l = some (l.map g)
  | [], _ => rfl
  | x :: xs, h => by
    have hx := h x (List.mem_cons_self x xs)
    have ih := optMap_eq_map f g xs (fun a ha => h a (List.mem_cons_of_mem x ha))
    simp [optMap, hx, ih]

/-! ### The all-ones matrix -/

theorem rate_replicate_one (N a b : Nat) (ha : a < N) (hb : b < N) :
    rate (List.replicate N (List.replicate N (1 : ℚ))) a b = 1 := by
  have h1 : (List.replicate N (List.replicate N (1 : ℚ))).getD a [] = List.replicate N 1 := by
    rw [List.getD_eq_getElem?_getD, List.getElem?_replicate, if_pos ha, Option.getD_some]
  rw [rate, h1, List.getD_eq_getElem?_getD, List.getElem?_replicate, if_pos hb, Option.getD_some]

theorem pathProd_replicate_one (N : Nat) :
    ∀ t : List Nat, (∀ x ∈ t, x < N) →
      pathProd (List.replicate N (List.replicate N (1 : ℚ))) t = 1
  | [], _ => rfl
  | [a], _ => rfl
  | a :: b :: rest, h => by
    rw [pathProd_cons₂,
      rate_replicate_one N a b (h a (List.mem_cons_self a _))
        (h b (List.mem_cons_of_mem a (List.mem_cons_self b rest))),
      pathProd_replicate_one N (b :: rest) (fun x hx => h x (List.mem_cons_of_mem a hx)),
      mul_one]

theorem getD_mem_of_lt (t : List Nat) (n : Nat) (h : n < t.length) : t.getD n 0 ∈ t := by
  rw [List.getD_eq_getElem?_getD, List.getElem?_eq_getElem h, Option.getD_some]
  exact List.getElem_mem h

/-! ### Ordering of emitted chains -/

theorem pairwise_of_all {α : Type} (R : α → α → Prop) :
    ∀ l : List α, (∀ a ∈ l, ∀ b ∈ l, R a b) → l.Pairwise R
  | [], _ => List.Pairwise.nil
  | x :: xs, h =>
    List.pairwise_cons.mpr
      ⟨fun b hb => h x (List.mem_cons_self x xs) b (List.mem_cons_of_mem x hb),
       pairwise_of_all R xs
         (fun a ha b hb => h a (List.mem_cons_of_mem x ha) b (List.mem_cons_of_mem x hb))⟩

theorem pairwise_lt_range' : ∀ (n s : Nat), (List.range' s n).Pairwise (· < ·)
  | 0, _ => by simp
  | n + 1, s => by
    rw [List.range'_succ]
    refine List.pairwise_cons.mpr ⟨?_, pairwise_lt_range' n (s + 1)⟩
    intro b hb
    have hm := List.mem_range'_1.mp hb
    omega

theorem length_displayChain (t : List Nat) : (displayChain t).length = t.length + 1 := by
  simp [displayChain]

theorem length_mem_blockChains {m : List (List ℚ)} {N K : Nat} {c : List Nat}
    (hc : c ∈ blockChains m N K) : c.length = K + 1 := by
  rcases List.mem_filterMap.mp hc with ⟨t, ht, hite⟩
  by_cases hcond : 1.01 < cycleVal m t
  · rw [if_pos hcond] at hite
    rw [← Option.some.inj hite, length_displayChain, (mem_generate.mp ht).1]
  · rw [if_neg hcond] at hite
    exact absurd hite (by simp)

theorem flatMap_blockChains_pairwise (m : List (List ℚ)) (N : Nat) :
    ∀ Ks : List Nat, Ks.Pairwise (· ≤ ·) →
      (Ks.flatMap (blockChains m N)).Pairwise (fun a b => a.length ≤ b.length)
  | [], _ => by simp
  | K :: Ks, h => by
    rw [List.flatMap_cons]
    rcases List.pairwise_cons.mp h with ⟨hK, hKs⟩
    rw [List.pairwise_append]
    refine ⟨?_, flatMap_blockChains_pairwise m N Ks hKs, ?_⟩
    · apply pairwise_of_all
      intro a ha b hb
      rw [length_mem_blockChains ha, length_mem_blockChains hb]
    · intro a ha b hb
      rcases List.mem_flatMap.mp hb with ⟨K', hK', hbK'⟩
      rw [length_mem_blockChains ha, length_mem_blockChains hbK']
      have := hK K' hK'
      omega

/-! ### Symbolic evaluation of the two-currency run -/

theorem detect_two (r s : ℚ) :
    (detect_arbitrage [[1, r], [s, 1]] 2 emptyMemo).chains
      = (if 1.01 < r * s then [[1, 2, 1]] else [])
        ++ (if 1.01 < s * r then [[2, 1, 2]] else []) := by
  by_cases h1 : (1.01 : ℚ) < r * s <;> by_cases h2 : (1.01 : ℚ) < s * r <;>
    simp [detect_arbitrage, runBlock, generate_transaction, combs, perms, permsAux, picks,
      step, crOf, rate, emptyMemo, displayChain, List.range', h1, h2]

/-! ### Claim theorems -/

/-- Claim C1: running `detect_arbitrage` on a second table with the memo
left over from a first run (as `main` does through the shared default
dict) yields exactly the chain list of a run started with a fresh empty
memo; no value computed during the first run influences the second
run's result. -/
theorem memo_isolation (m1 : List (List ℚ)) (N1 : Nat) (m2 : List (List ℚ)) (N2 : Nat) :
    (detect_arbitrage m2 N2 (detect_arbitrage m1 N1 emptyMemo).memo).chains
      = (detect_arbitrage m2 N2 emptyMemo).chains := by
  have hg1 : goodMemo emptyMemo := fun k _ => rfl
  have hgout : goodMemo (detect_arbitrage m1 N1 emptyMemo).memo :=
    (detect_spec m1 N1 emptyMemo hg1).2.1
  rw [(detect_spec m2 N2 _ hgout).2.2, (detect_spec m2 N2 emptyMemo hg1).2.2]

/-- Claim C2, counterexample: with `r = 51/50` and `s = 1` we have
`r*s = 1.02`, yet the run returns TWO chains, `[1,2,1]` and `[2,1,2]`,
not exactly one chain `[1,2,1]` as the claim states. -/
theorem two_currency_counterexample :
    (51 : ℚ) / 50 * 1 = 1.02
    ∧ (detect_arbitrage [[1, 51 / 50], [1, 1]] 2 emptyMemo).chains ≠ [[1, 2, 1]]
    ∧ (detect_arbitrage [[1, 51 / 50], [1, 1]] 2 emptyMemo).chains
        = [[1, 2, 1], [2, 1, 2]] := by
  refine ⟨by norm_num, ?_, ?_⟩
  · rw [detect_two]
    norm_num
  · rw [detect_two]
    norm_num

/-- Claim C2 (amended): for the 2-currency table `[[1, r], [s, 1]]` the
chain list is non-empty iff `r*s > 1.01`; at `r*s = 1.0099` it is
empty, and at `r*s = 1.02` it consists of exactly the two chains
`[1,2,1]` and `[2,1,2]` (one per enumerated length-2 transaction), not
a single chain. -/
theorem two_currency_boundary (r s : ℚ) :
    ((detect_arbitrage [[1, r], [s, 1]] 2 emptyMemo).chains ≠ [] ↔ 1.01 < r * s)
    ∧ (r * s = 1.0099 → (detect_arbitrage [[1, r], [s, 1]] 2 emptyMemo).chains = [])
    ∧ (r * s = 1.02 →
        (detect_arbitrage [[1, r], [s, 1]] 2 emptyMemo).chains
          = [[1, 2, 1], [2, 1, 2]]) := by
  have hcore := detect_two r s
  rw [mul_comm s r] at hcore
  refine ⟨?_, ?_, ?_⟩
  · rw [hcore]
    by_cases h : (1.01 : ℚ) < r * s
    · simp [h]
    · simp [h]
  · intro he
    rw [hcore]
    have h : ¬ (1.01 : ℚ) < r * s := by rw [he]; norm_num
    simp [h]
  · intro he
    rw [hcore]
    have h : (1.01 : ℚ) < r * s := by rw [he]; norm_num
    simp [h]

theorem two_currency_boundary_witness :
    (detect_arbitrage [[1, 51 / 50], [(1 : ℚ), 1]] 2 emptyMemo).chains
      = [[1, 2, 1], [2, 1, 2]] :=
  (two_currency_boundary (51 / 50) 1).2.2 (by norm_num)

/-- Claim C3, counterexample: a 3-currency matrix whose only profitable
cycle is `0 → 1 → 2 → 0` with product `1.05` (all 2-cycles and the
reversed 3-cycle stay at or below `1.01`) produces THREE chains — the
three rotations of the cycle — not exactly the single list
`[[1,2,3,1]]` that the claim states. -/
theorem three_currency_counterexample :
    (21 : ℚ) / 20 * 1 * 1 = 1.05
    ∧ (21 : ℚ) / 20 * (1 / 2) ≤ 1.01
    ∧ (1 : ℚ) / 2 * 1 ≤ 1.01
    ∧ (1 : ℚ) * (1 / 2) ≤ 1.01
    ∧ (1 : ℚ) / 2 * (1 / 2) * (1 / 2) ≤ 1.01
    ∧ (detect_arbitrage [[1, 21 / 20, 1 / 2], [1 / 2, 1, 1], [1, 1 / 2, 1]] 3 emptyMemo).chains
        ≠ [[1, 2, 3, 1]]
    ∧ (detect_arbitrage [[1, 21 / 20, 1 / 2], [1 / 2, 1, 1], [1, 1 / 2, 1]] 3 emptyMemo).chains
        = [[1, 2, 3, 1], [2, 3, 1, 2], [3, 1, 2, 3]] := by
  refine ⟨by norm_num, by norm_num, by norm_num, by norm_num, by norm_num, ?_, ?_⟩
  · norm_num [detect_arbitrage, runBlock, generate_transaction, combs, perms, permsAux, picks,
      step, crOf, rate, emptyMemo, displayChain, List.range']
    try decide
  · norm_num [detect_arbitrage, runBlock, generate_transaction, combs, perms, permsAux, picks,
      step, crOf, rate, emptyMemo, displayChain, List.range']

/-- Claim C3 (amended): for `N = 3` with
`rate[0][1]*rate[1][2]*rate[2][0] = 1.05` and every other 2- or
3-cycle value at most `1.01`, the run returns exactly the three
rotations `[[1,2,3,1], [2,3,1,2], [3,1,2,3]]` of the profitable cycle
(each rotation is a separate enumerated transaction), not a single
chain. -/
theorem three_currency_rotations (a b c d e f : ℚ)
    (h1 : a * d * e = 1.05) (h2 : a * c ≤ 1.01) (h3 : b * e ≤ 1.01)
    (h4 : d * f ≤ 1.01) (h5 : b * f * c ≤ 1.01) :
    (detect_arbitrage [[1, a, b], [c, 1, d], [e, f, 1]] 3 emptyMemo).chains
      = [[1, 2, 3, 1], [2, 3, 1, 2], [3, 1, 2, 3]] := by
  have n1 : ¬ (1.01 : ℚ) < a * c := not_lt.mpr h2
  have n1' : ¬ (1.01 : ℚ) < c * a := by rw [mul_comm]; exact n1
  have n2 : ¬ (1.01 : ℚ) < b * e := not_lt.mpr h3
  have n2' : ¬ (1.01 : ℚ) < e * b := by rw [mul_comm]; exact n2
  have n3 : ¬ (1.01 : ℚ) < d * f := not_lt.mpr h4
  have n3' : ¬ (1.01 : ℚ) < f * d := by rw [mul_comm]; exact n3
  have n4 : ¬ (1.01 : ℚ) < b * f * c := not_lt.mpr h5
  have n4' : ¬ (1.01 : ℚ) < c * b * f := by
    rw [show c * b * f = b * f * c by ring]
    exact n4
  have n4'' : ¬ (1.01 : ℚ) < f * c * b := by
    rw [show f * c * b = b * f * c by ring]
    exact n4
  have p1 : (1.01 : ℚ) < a * d * e := by rw [h1]; norm_num
  have p1' : (1.01 : ℚ) < d * e * a := by
    rw [show d * e * a = a * d * e by ring]
    exact p1
  have p1'' : (1.01 : ℚ) < e * a * d := by
    rw [show e * a * d = a * d * e by ring]
    exact p1
  simp [detect_arbitrage, runBlock, generate_transaction, combs, perms, permsAux, picks,
    step, crOf, rate, emptyMemo, displayChain, List.range',
    n1, n1', n2, n2', n3, n3', n4, n4', n4'', p1, p1', p1'']

theorem three_currency_rotations_witness :
    (detect_arbitrage [[1, 21 / 20, 1 / 2], [1 / 2, 1, 1], [(1 : ℚ), 1 / 2, 1]] 3
        emptyMemo).chains
      = [[1, 2, 3, 1], [2, 3, 1, 2], [3, 1, 2, 3]] :=
  three_currency_rotations (21 / 20) (1 / 2) (1 / 2) 1 1 (1 / 2)
    (by norm_num) (by norm_num) (by norm_num) (by norm_num) (by norm_num)

/-- Claim C4: for `2 ≤ K ≤ N`, `generate_transaction N K` yields
exactly `C(N,K)·K!` sequences, pairwise distinct, each an ordered
sequence of `K` distinct indices below `N`, and every such sequence
appears. -/
theorem generate_transaction_spec (N K : Nat) (hK2 : 2 ≤ K) (hKN : K ≤ N) :
    (generate_transaction N K).length = N.choose K * K.factorial
    ∧ (generate_transaction N K).Nodup
    ∧ (∀ t ∈ generate_transaction N K, t.length = K ∧ t.Nodup ∧ ∀ x ∈ t, x < N)
    ∧ (∀ t : List Nat, t.length = K → t.Nodup → (∀ x ∈ t, x < N) →
        t ∈ generate_transaction N K) :=
  ⟨length_generate N K, nodup_generate N K,
   fun t ht => mem_generate.mp ht,
   fun t ht1 ht2 ht3 => mem_generate.mpr ⟨ht1, ht2, ht3⟩⟩

theorem generate_transaction_spec_witness :
    2 ≤ 3 ∧ 3 ≤ 4 ∧ (generate_transaction 4 3).length = 24 :=
  ⟨by decide, by decide,
   ((generate_transaction_spec 4 3 (by decide) (by decide)).1).trans (by decide)⟩

/-- Claim C6: on the neutral market — every entry of the `N × N`
matrix equal to `1` — detection returns no chains for any `N ≥ 2`. -/
theorem neutral_market (N : Nat) (hN : 2 ≤ N) :
    (detect_arbitrage (List.replicate N (List.replicate N (1 : ℚ))) N emptyMemo).chains
      = [] := by
  rw [(detect_spec _ N emptyMemo (fun k _ => rfl)).2.2, chainsSpec]
  apply List.flatMap_eq_nil_iff.mpr
  intro K hK
  rw [blockChains]
  apply List.filterMap_eq_nil_iff.mpr
  intro t ht
  obtain ⟨hlen, hnd, hb⟩ := mem_generate.mp ht
  have hK2 : 2 ≤ K := (List.mem_range'_1.mp hK).1
  have hcv : cycleVal (List.replicate N (List.replicate N (1 : ℚ))) t = 1 := by
    have hm1 : t.getD (t.length - 1) 0 ∈ t := getD_mem_of_lt t (t.length - 1) (by omega)
    have hm0 : t.getD 0 0 ∈ t := getD_mem_of_lt t 0 (by omega)
    rw [cycleVal, pathProd_replicate_one N t hb,
      rate_replicate_one N _ _ (hb _ hm1) (hb _ hm0), one_mul]
  rw [hcv, if_neg (by norm_num)]

theorem neutral_market_witness :
    2 ≤ 2
    ∧ (detect_arbitrage (List.replicate 2 (List.replicate 2 (1 : ℚ))) 2 emptyMemo).chains
        = [] :=
  ⟨by decide, neutral_market 2 (by decide)⟩

/-- Claim C8: the chain list is emitted in ascending block order —
for each length `K` from 2 to `N` in turn, the chains of the length-`K`
transactions in enumerator order (itertools combination order, then
itertools permutation order) — so in particular the chain lengths are
non-decreasing. -/
theorem chain_order (m : List (List ℚ)) (N : Nat) :
    (detect_arbitrage m N emptyMemo).chains
      = (List.range' 2 (N - 1)).flatMap (fun K =>
          (generate_transaction N K).filterMap
            (fun t => if 1.01 < cycleVal m t then some (displayChain t) else none))
    ∧ ((detect_arbitrage m N emptyMemo).chains.map List.length).Pairwise (· ≤ ·) := by
  have h := (detect_spec m N emptyMemo (fun k _ => rfl)).2.2
  constructor
  · rw [h, chainsSpec]
    rfl
  · rw [h, chainsSpec]
    exact List.pairwise_map.mpr
      (flatMap_blockChains_pairwise m N _ ((pairwise_lt_range' (N - 1) 2).imp le_of_lt))

/-- Claim C9: every emitted chain is `[t0+1, …, t(K-1)+1, t0+1]` for
some enumerated transaction `t` of length `K`, `2 ≤ K ≤ N`, whose
cycle value exceeds `1.01`; its first and last entries coincide, every
entry lies in `[1, N]`, and its first `K` entries are pairwise
distinct. -/
theorem chain_shape (m : List (List ℚ)) (N : Nat) (c : List Nat)
    (hc : c ∈ (detect_arbitrage m N emptyMemo).chains) :
    ∃ K t, 2 ≤ K ∧ K ≤ N ∧ t ∈ generate_transaction N K ∧ t.length = K
      ∧ 1.01 < cycleVal m t
      ∧ c = t.map (fun x => x + 1) ++ [t.getD 0 0 + 1]
      ∧ c.getD 0 0 = c.getD (c.length - 1) 0
      ∧ (∀ x ∈ c, 1 ≤ x ∧ x ≤ N)
      ∧ (c.take K).Nodup := by
  rw [(detect_spec m N emptyMemo (fun k _ => rfl)).2.2, chainsSpec] at hc
  rcases List.mem_flatMap.mp hc with ⟨K, hK, hcK⟩
  obtain ⟨hK2, hKlt⟩ := List.mem_range'_1.mp hK
  rcases List.mem_filterMap.mp hcK with ⟨t, ht, hite⟩
  obtain ⟨hlen, hnd, hb⟩ := mem_generate.mp ht
  have hKN : K ≤ N := by omega
  by_cases hcond : 1.01 < cycleVal m t
  case neg =>
    rw [if_neg hcond] at hite
    exact absurd hite (by simp)
  rw [if_pos hcond] at hite
  have hcd : c = displayChain t := (Option.some.inj hite).symm
  obtain ⟨a, ts, rfl⟩ : ∃ a ts, t = a :: ts := by
    cases t with
    | nil => rw [← hlen] at hK2; simp at hK2
    | cons a ts => exact ⟨a, ts, rfl⟩
  refine ⟨K, a :: ts, hK2, hKN, ht, hlen, hcond, hcd, ?_, ?_, ?_⟩
  · rw [hcd, displayChain]
    have hlast : (((a :: ts).map (fun x => x + 1)) ++ [(a :: ts).getD 0 0 + 1]).getD
        ((((a :: ts).map (fun x => x + 1)) ++ [(a :: ts).getD 0 0 + 1]).length - 1) 0
        = (a :: ts).getD 0 0 + 1 := by
      rw [List.getD_eq_getElem?_getD]
      have hl : (((a :: ts).map (fun x => x + 1)) ++ [(a :: ts).getD 0 0 + 1]).length - 1
          = ((a :: ts).map (fun x => x + 1)).length := by
        simp
      rw [hl, List.getElem?_concat_length, Option.getD_some]
    rw [hlast]
    rfl
  · intro x hx
    rw [hcd, displayChain] at hx
    rcases List.mem_append.mp hx with hx | hx
    · rcases List.mem_map.mp hx with ⟨y, hy, rfl⟩
      have := hb y hy
      omega
    · rcases List.mem_singleton.mp hx with rfl
      have := hb ((a :: ts).getD 0 0) (getD_mem_of_lt _ 0 (by simp))
      omega
  · rw [hcd, displayChain]
    have hlenmap : ((a :: ts).map (fun x => x + 1)).length = K := by
      rw [List.length_map, hlen]
    rw [← hlenmap, List.take_left]
    exact List.Nodup.map (fun x y hxy => by omega) hnd

theorem chain_shape_witness :
    ∃ K t, 2 ≤ K ∧ K ≤ 2 ∧ t ∈ generate_transaction 2 K ∧ t.length = K
      ∧ 1.01 < cycleVal [[1, 51 / 50], [(1 : ℚ), 1]] t
      ∧ [1, 2, 1] = t.map (fun x => x + 1) ++ [t.getD 0 0 + 1]
      ∧ [1, 2, 1].getD 0 0 = [1, 2, 1].getD ([1, 2, 1].length - 1) 0
      ∧ (∀ x ∈ [1, 2, 1], 1 ≤ x ∧ x ≤ 2)
      ∧ ([1, 2, 1].take K).Nodup :=
  chain_shape [[1, 51 / 50], [(1 : ℚ), 1]] 2 [1, 2, 1]
    (by rw [detect_two]; norm_num)

/-- Claim C10: a detection run never modifies the exchange rate
matrix: the matrix component of the final state equals the input
matrix entry for entry. -/
theorem matrix_unchanged (m : List (List ℚ)) (N : Nat) (memo0 : List Nat → Option ℚ) :
    (detect_arbitrage m N memo0).mat = m := by
  rw [detect_arbitrage, foldl_runBlock_mat]

/-- Claim C5: in a run started with the empty memo, at the moment a
length-`K` transaction `t` is processed (after the blocks of lengths
2..K-1 and the prefix `p` of the length-`K` block), the prefix
`t[:-1]` is a memo key exactly when `K > 2`, and the value the step
stores under key `t` is the product of `rate[t_k][t_{k+1}]` over the
consecutive pairs of `t`; the whole run factors through that moment. -/
theorem memo_at_processing (m : List (List ℚ)) (N K : Nat) (hK2 : 2 ≤ K) (hKN : K ≤ N)
    (p : List (List Nat)) (t : List Nat) (s : List (List Nat))
    (hsplit : generate_transaction N K = p ++ t :: s) :
    detect_arbitrage m N emptyMemo
        = (List.range' (K + 1) (N - K)).foldl (runBlock N)
            ((t :: s).foldl step (stateBefore m N K p))
    ∧ ((stateBefore m N K p).memo t.dropLast ≠ none ↔ 2 < K)
    ∧ (step (stateBefore m N K p) t).memo t = some (pathProd m t) := by
  obtain ⟨b1, b2, b3, -⟩ := foldBlocks N m (K - 2) ⟨m, emptyMemo, []⟩ rfl (fun k _ => rfl)
  have hp : ∀ u ∈ p, u.length = K ∧ isTrans N u := by
    intro u hu
    have hug : u ∈ generate_transaction N K := by
      rw [hsplit]
      exact List.mem_append_left _ hu
    obtain ⟨h1, h2, h3⟩ := mem_generate.mp hug
    exact ⟨h1, h2, h3⟩
  have hCstart : ∀ k : List Nat, 2 ≤ k.length → k.length < K → isTrans N k →
      ((List.range' 2 (K - 2)).foldl (runBlock N) ⟨m, emptyMemo, []⟩).memo k
        = some (pathProd m k) :=
    fun k hk1 hk2 hk3 => b3 k hk1 (by omega) hk3
  obtain ⟨f1, f2, f3, -, -⟩ := foldBlock N m K hK2 p
    ((List.range' 2 (K - 2)).foldl (runBlock N) ⟨m, emptyMemo, []⟩) hp b1 b2 hCstart
  have hsb : stateBefore m N K p
      = p.foldl step ((List.range' 2 (K - 2)).foldl (runBlock N) ⟨m, emptyMemo, []⟩) := rfl
  have htmem : t ∈ generate_transaction N K := by
    rw [hsplit]
    exact List.mem_append_right p (List.mem_cons_self t s)
  obtain ⟨htlen, htnd, htb⟩ := mem_generate.mp htmem
  have hCp : ∀ k : List Nat, 2 ≤ k.length → k.length < K → isTrans N k →
      (stateBefore m N K p).memo k = some (pathProd m k) := by
    intro k h1 h2 h3
    rw [hsb]
    exact f3 k (hCstart k h1 h2 h3)
  refine ⟨?_, ?_, ?_⟩
  · have e1 : List.range' 2 (N - 1) = List.range' 2 (K - 2) ++ List.range' K (N + 1 - K) := by
      have h := List.range'_append 2 (K - 2) (N + 1 - K) 1
      rw [show 2 + 1 * (K - 2) = K by omega, show N + 1 - K + (K - 2) = N - 1 by omega] at h
      exact h.symm
    have e2 : List.range' K (N + 1 - K) = K :: List.range' (K + 1) (N - K) := by
      rw [show N + 1 - K = (N - K) + 1 by omega, List.range'_succ]
    rw [detect_arbitrage, e1, List.foldl_append, e2, List.foldl_cons]
    have e3 : runBlock N ((List.range' 2 (K - 2)).foldl (runBlock N) ⟨m, emptyMemo, []⟩) K
        = (t :: s).foldl step (stateBefore m N K p) := by
      rw [runBlock, hsplit, List.foldl_append, hsb]
    rw [e3]
  · rcases eq_or_lt_of_le hK2 with he | hgt
    · have hdl : t.dropLast.length = 1 := by
        rw [List.length_dropLast, htlen, ← he]
      have hnone : (stateBefore m N K p).memo t.dropLast = none := by
        rw [hsb]
        exact f2 t.dropLast hdl
      rw [hnone]
      constructor
      · intro h
        exact absurd rfl h
      · intro h
        exact absurd h (by omega)
    · have hdl2 : 2 ≤ t.dropLast.length := by
        rw [List.length_dropLast, htlen]
        omega
      have hdlK : t.dropLast.length < K := by
        rw [List.length_dropLast, htlen]
        omega
      have hdltr : isTrans N t.dropLast :=
        ⟨htnd.sublist (List.dropLast_sublist t),
         fun x hx => htb x ((List.dropLast_sublist t).subset hx)⟩
      rw [hCp t.dropLast hdl2 hdlK hdltr]
      constructor
      · intro _
        exact hgt
      · intro _
        simp
  · have hstep := step_eq N m (stateBefore m N K p) t (by rw [hsb]; exact f1)
      (by omega) ⟨htnd, htb⟩ (by rw [hsb]; exact f2)
      (fun k h1 h2 h3 => hCp k h1 (by omega) h3)
    rw [hstep]
    show (if t = t then some (pathProd m t) else (stateBefore m N K p).memo t)
        = some (pathProd m t)
    rw [if_pos rfl]

theorem memo_at_processing_witness :
    detect_arbitrage [[1, 2, 3], [4, 1, 5], [(6 : ℚ), 7, 1]] 3 emptyMemo
        = (List.range' 4 0).foldl (runBlock 3)
            (([0, 1, 2] :: [[0, 2, 1], [1, 0, 2], [1, 2, 0], [2, 0, 1], [2, 1, 0]]).foldl step
              (stateBefore [[1, 2, 3], [4, 1, 5], [(6 : ℚ), 7, 1]] 3 3 []))
    ∧ ((stateBefore [[1, 2, 3], [4, 1, 5], [(6 : ℚ), 7, 1]] 3 3 []).memo
          [0, 1, 2].dropLast ≠ none ↔ 2 < 3)
    ∧ (step (stateBefore [[1, 2, 3], [4, 1, 5], [(6 : ℚ), 7, 1]] 3 3 []) [0, 1, 2]).memo
          [0, 1, 2] = some (pathProd [[1, 2, 3], [4, 1, 5], [(6 : ℚ), 7, 1]] [0, 1, 2]) :=
  memo_at_processing [[1, 2, 3], [4, 1, 5], [(6 : ℚ), 7, 1]] 3 3 (by decide) (by decide)
    [] [0, 1, 2] [[0, 2, 1], [1, 0, 2], [1, 2, 0], [2, 0, 1], [2, 1, 0]] (by decide)

/-- Claim C7, counterexample: for `N = 2` the first input row `[5, 9]`
has 2 entries instead of the required `N - 1 = 1`, yet `transform_input`
does not reject the table — it silently truncates the row and returns
the completed matrix `[[1, 5], [7, 1]]`. -/
theorem transform_input_counterexample :
    ([[(5 : ℚ), 9], [7]].getD 0 []).length ≠ 2 - 1
    ∧ transform_input [[(5 : ℚ), 9], [7]] 2 ≠ none
    ∧ transform_input [[(5 : ℚ), 9], [7]] 2 = some [[1, 5], [7, 1]] := by
  refine ⟨by decide, ?_, by decide⟩
  intro h
  rw [show transform_input [[(5 : ℚ), 9], [7]] 2 = some [[1, 5], [7, 1]] by decide] at h
  exact Option.noConfusion h

/-- Claim C7 (amended): `transform_input` performs no row-length
validation. A row among the first `N` that is missing or has fewer
than `N - 1` entries makes construction fail with an out-of-range
access (modelled as `none`) — not a `FormatError`, which does not
exist in the code — while rows longer than `N - 1` entries are
silently truncated: whenever every one of the first `N` rows has at
least `N - 1` entries, the result is the complete `N × N` matrix with
unit diagonal and off-diagonal `[i][j]` equal to input cell
`[i][j]` (for `j < i`) or `[i][j-1]` (for `j > i`). -/
theorem transform_input_behavior (input : List (List ℚ)) (N : Nat) (hN : 2 ≤ N) :
    ((∃ i, i < N ∧ (input.getD i []).length < N - 1) → transform_input input N = none)
    ∧ ((∀ i, i < N → N - 1 ≤ (input.getD i []).length) →
        ∃ M, transform_input input N = some M
          ∧ M.length = N
          ∧ ∀ i, i < N → (M.getD i []).length = N
              ∧ (M.getD i []).getD i 0 = 1
              ∧ ∀ j, j < N → j ≠ i →
                  (M.getD i []).getD j 0
                    = (input.getD i []).getD (if j < i then j else j - 1) 0) := by
  constructor
  · rintro ⟨i, hi, hshort⟩
    apply optMap_eq_none (List.mem_range.mpr hi)
    rcases hrow : input.get? i with _ | row
    · by_cases hi' : i = N - 1
      · apply optMap_eq_none (List.mem_range.mpr (show N - 2 < N by omega))
        have hj1 : N - 2 < i := by omega
        simp only [if_pos hj1, hrow, Option.none_bind]
      · apply optMap_eq_none (List.mem_range.mpr (show N - 1 < N by omega))
        have hj1 : ¬ N - 1 < i := by omega
        have hj2 : ¬ N - 1 = i := by omega
        simp only [if_neg hj1, if_neg hj2, hrow, Option.none_bind]
    · have hrowD : input.getD i [] = row := by
        rw [List.getD_eq_getElem?_getD, ← List.get?_eq_getElem?, hrow, Option.getD_some]
      rw [hrowD] at hshort
      have hnone : row.get? (N - 2) = none := List.get?_eq_none.mpr (by omega)
      by_cases hi' : i = N - 1
      · apply optMap_eq_none (List.mem_range.mpr (show N - 2 < N by omega))
        have hj1 : N - 2 < i := by omega
        simp only [if_pos hj1, hrow, Option.some_bind]
        exact hnone
      · apply optMap_eq_none (List.mem_range.mpr (show N - 1 < N by omega))
        have hj1 : ¬ N - 1 < i := by omega
        have hj2 : ¬ N - 1 = i := by omega
        simp only [if_neg hj1, if_neg hj2, hrow, Option.some_bind]
        rw [show N - 1 - 1 = N - 2 by omega]
        exact hnone
  · intro hok
    have hrow : ∀ i, i < N → input.get? i = some (input.getD i []) := by
      intro i hi
      rcases hr : input.get? i with _ | row
      · exfalso
        have hnil : input.getD i [] = [] := by
          rw [List.getD_eq_getElem?_getD, ← List.get?_eq_getElem?, hr]
          rfl
        have hlen := hok i hi
        rw [hnil] at hlen
        simp at hlen
        omega
      · rw [List.getD_eq_getElem?_getD, ← List.get?_eq_getElem?, hr, Option.getD_some]
    refine ⟨(List.range N).map (fun i => (List.range N).map (fun j =>
      if j < i then (input.getD i []).getD j 0
      else if j = i then 1
      else (input.getD i []).getD (j - 1) 0)), ?_, by simp, ?_⟩
    · rw [transform_input]
      apply optMap_eq_map
      intro i hiR
      have hi : i < N := List.mem_range.mp hiR
      apply optMap_eq_map
      intro j hjR
      have hj : j < N := List.mem_range.mp hjR
      have hlen := hok i hi
      by_cases h1 : j < i
      · rw [if_pos h1, if_pos h1, hrow i hi]
        simp only [Option.some_bind]
        have hjlen : j < (input.getD i []).length := by omega
        rw [List.get?_eq_getElem?, List.getElem?_eq_getElem hjlen]
        have hval : (input.getD i []).getD j 0 = (input.getD i [])[j] := by
          rw [List.getD_eq_getElem?_getD, List.getElem?_eq_getElem hjlen, Option.getD_some]
        rw [hval]
      · by_cases h2 : j = i
        · rw [if_neg h1, if_pos h2, if_neg h1, if_pos h2]
        · rw [if_neg h1, if_neg h2, if_neg h1, if_neg h2, hrow i hi]
          simp only [Option.some_bind]
          have hjlen : j - 1 < (input.getD i []).length := by omega
          rw [List.get?_eq_getElem?, List.getElem?_eq_getElem hjlen]
          have hval : (input.getD i []).getD (j - 1) 0 = (input.getD i [])[j - 1] := by
            rw [List.getD_eq_getElem?_getD, List.getElem?_eq_getElem hjlen, Option.getD_some]
          rw [hval]
    · intro i hi
      have hMi : ((List.range N).map (fun i => (List.range N).map (fun j =>
          if j < i then (input.getD i []).getD j 0
          else if j = i then 1
          else (input.getD i []).getD (j - 1) 0))).getD i []
          = (List.range N).map (fun j =>
              if j < i then (input.getD i []).getD j 0
              else if j = i then 1
              else (input.getD i []).getD (j - 1) 0) := by
        rw [List.getD_eq_getElem?_getD, List.getElem?_map, List.getElem?_range hi]
        rfl
      rw [hMi]
      have hcell : ∀ j, j < N → ((List.range N).map (fun j =>
          if j < i then (input.getD i []).getD j 0
          else if j = i then 1
          else (input.getD i []).getD (j - 1) 0)).getD j 0
          = (if j < i then (input.getD i []).getD j 0
             else if j = i then 1
             else (input.getD i []).getD (j - 1) 0) := by
        intro j hj
        rw [List.getD_eq_getElem?_getD, List.getElem?_map, List.getElem?_range hj]
        rfl
      refine ⟨by simp, ?_, ?_⟩
      · rw [hcell i hi, if_neg (lt_irrefl i), if_pos rfl]
      · intro j hj hji
        rw [hcell j hj]
        by_cases h1 : j < i
        · rw [if_pos h1, if_pos h1]
        · rw [if_neg h1, if_neg hji, if_neg h1]

theorem transform_input_behavior_witness :
    ∃ M, transform_input [[(5 : ℚ)], [7]] 2 = some M
      ∧ M.length = 2
      ∧ ∀ i, i < 2 → (M.getD i []).length = 2
          ∧ (M.getD i []).getD i 0 = 1
          ∧ ∀ j, j < 2 → j ≠ i →
              (M.getD i []).getD j 0
                = ([[(5 : ℚ)], [7]].getD i []).getD (if j < i then j else j - 1) 0 :=
  (transform_input_behavior [[(5 : ℚ)], [7]] 2 (by decide)).2
    (by decide)

end Arbitrage
